import Mathlib

/-!
Verification of the fp-ts `ReadonlyArray` and `Task` modules.

The JavaScript sources are shallowly embedded: a `ReadonlyArray<A>` becomes a
`List α`, JS numeric indices become `Int` (so that negative indices keep their
meaning), an `Option<A>` becomes `Option α`, and a `Task<A>` (a thunk returning
a promise) is modelled by the eventual settlement of that promise.
-/

namespace RA

/-- Embeds `isEmpty` from `src/es6/ReadonlyArray.js`: `as.length === 0`. -/
def isEmpty (as : List α) : Bool :=
  as.length = 0

/-- Embeds `isNonEmpty`: `as.length > 0`. -/
def isNonEmpty (as : List α) : Bool :=
  as.length > 0

/-- Embeds `isOutOfBound`: `i < 0 || i >= as.length`. -/
def isOutOfBound (i : Int) (as : List α) : Bool :=
  i < 0 || i ≥ (as.length : Int)

/-- Embeds the private `concat` of `src/es6/ReadonlyArray.js`: if either side
has length 0 it returns the other argument unchanged, otherwise it builds the
array holding the elements of `x` followed by those of `y` (the two copy
loops). -/
def concat (x y : List α) : List α :=
  if x.length = 0 then y
  else if y.length = 0 then x
  else x ++ y

/-- Embeds `empty`: the empty array. -/
def empty : List α := []

/-- Embeds `of`: `(a) => [a]`. -/
def of (a : α) : List α := [a]

/-- Embeds `map`: `fa.map(a => f(a))`. -/
def map (f : α → β) (fa : List α) : List β :=
  fa.map f

/-- Embeds `chain`: for each element the image array is computed, and the
image arrays are concatenated in order (the two loops of the source). -/
def chain (f : α → List β) (ma : List α) : List β :=
  (ma.map f).flatten

/-- Embeds `flatten`: concatenates the member arrays in order (the source
computes the total length and copies each member array). -/
def flatten (mma : List (List α)) : List α :=
  mma.flatten

/-- Embeds `lookup`: `isOutOfBound(i, as) ? none : some(as[i])`; reading a JS
array at an in-bounds integer index yields the element there. -/
def lookup (i : Int) (as : List α) : Option α :=
  if isOutOfBound i as then none else as.get? i.toNat

/-- Embeds `unsafeInsertAt`: a copy of `as` with `a` spliced in at index
`i` (`xs.splice(i, 0, a)` on the copy). -/
def unsafeInsertAt : Nat → α → List α → List α
  | 0, a, as => a :: as
  | _ + 1, a, [] => [a]
  | n + 1, a, x :: xs => x :: unsafeInsertAt n a xs

/-- Embeds `insertAt`: `i < 0 || i > as.length ? none : some(unsafeInsertAt(i, a, as))`. -/
def insertAt (i : Int) (a : α) (as : List α) : Option (List α) :=
  if i < 0 || i > (as.length : Int) then none else some (unsafeInsertAt i.toNat a as)

/-- Embeds `unsafeUpdateAt`: if the element at `i` already is `a` the input
array itself is returned, otherwise a copy with index `i` set to `a`. -/
def unsafeUpdateAt [DecidableEq α] (i : Nat) (a : α) (as : List α) : List α :=
  if as.get? i = some a then as else as.set i a

/-- Embeds `updateAt`: `isOutOfBound(i, as) ? none : some(unsafeUpdateAt(i, a, as))`. -/
def updateAt [DecidableEq α] (i : Int) (a : α) (as : List α) : Option (List α) :=
  if isOutOfBound i as then none else some (unsafeUpdateAt i.toNat a as)

theorem concat_eq_append (x y : List α) : concat x y = x ++ y := by
  unfold concat
  by_cases hx : x.length = 0
  · simp [hx, List.length_eq_zero.mp hx]
  · by_cases hy : y.length = 0
    · simp [hx, hy, List.length_eq_zero.mp hy]
    · simp [hx, hy]

/-- Embeds `scanLeft`: the result r has `r[0] = b` and
`r[i + 1] = f(r[i], as[i])` (the source fills a fresh array of length
`l + 1` with that loop). -/
def scanLeft (b : β) (f : β → α → β) : List α → List β
  | [] => [b]
  | a :: as => b :: scanLeft (f b a) f as

/-- The loop body of `reduceWithIndex`, carrying the running index. -/
def reduceWithIndexAux (f : Nat → β → α → β) : Nat → β → List α → β
  | _, r, [] => r
  | i, r, a :: as => reduceWithIndexAux f (i + 1) (f i r a) as

/-- Embeds `reduceWithIndex`: the left fold that also passes the index. -/
def reduceWithIndex (b : β) (f : Nat → β → α → β) (fa : List α) : β :=
  reduceWithIndexAux f 0 b fa

/-- Embeds `reduce`: `reduceWithIndex(b, (_, b, a) => f(b, a))`. -/
def reduce (b : β) (f : β → α → β) (fa : List α) : β :=
  reduceWithIndex b (fun _ r a => f r a) fa

theorem reduceWithIndexAux_const (f : β → α → β) :
    ∀ (as : List α) (i : Nat) (b : β),
      reduceWithIndexAux (fun _ r a => f r a) i b as = as.foldl f b
  | [], _, _ => rfl
  | a :: as, i, b => reduceWithIndexAux_const f as (i + 1) (f b a)

theorem reduce_eq_foldl (b : β) (f : β → α → β) (as : List α) :
    reduce b f as = as.foldl f b :=
  reduceWithIndexAux_const f as 0 b

theorem scanLeft_length (f : β → α → β) :
    ∀ (as : List α) (b : β), (scanLeft b f as).length = as.length + 1
  | [], _ => rfl
  | a :: as, b => by
      simp [scanLeft, scanLeft_length f as (f b a)]

theorem scanLeft_head (f : β → α → β) (as : List α) (b : β) :
    (scanLeft b f as).get? 0 = some b := by
  cases as <;> rfl

theorem scanLeft_step (f : β → α → β) :
    ∀ (as : List α) (b : β) (i : Nat) (bi : β) (ai : α),
      (scanLeft b f as).get? i = some bi → as.get? i = some ai →
      (scanLeft b f as).get? (i + 1) = some (f bi ai)
  | [], _, i, _, _, _, ha => by simp at ha
  | a :: as, b, 0, bi, ai, hb, ha => by
      have hbi : b = bi := by simpa [scanLeft] using hb
      have hai : a = ai := by simpa using ha
      subst hbi; subst hai
      simpa [scanLeft] using scanLeft_head f as (f b a)
  | a :: as, b, i + 1, bi, ai, hb, ha =>
      scanLeft_step f as (f b a) i bi ai hb ha

theorem scanLeft_getLast (f : β → α → β) :
    ∀ (as : List α) (b : β), (scanLeft b f as).getLast? = some (as.foldl f b)
  | [], b => rfl
  | a :: as, b => by
      have h := scanLeft_getLast f as (f b a)
      cases as with
      | nil => rfl
      | cons a' as' =>
          simpa [scanLeft, List.getLast?_cons_cons] using h

/-- Embeds the while loop of `chop` with explicit fuel: each iteration applies
`f` to the current non-empty rest, keeps the produced value and continues on
the produced rest; `none` means the loop did not finish within `fuel`
iterations. -/
def chopFuel : Nat → (List α → β × List α) → List α → Option (List β)
  | _, _, [] => some []
  | 0, _, _ :: _ => none
  | fuel + 1, f, a :: as =>
      (chopFuel fuel f (f (a :: as)).2).map (fun r => (f (a :: as)).1 :: r)

/-- `chop(f)(as)` terminates: some amount of fuel lets its loop finish. -/
def chopTerminates (f : List α → β × List α) (as : List α) : Prop :=
  ∃ fuel, (chopFuel fuel f as).isSome

/-- Embeds the while loop of `unfold` with explicit fuel: iterate `f` from the
seed, collecting the produced values, until `f` returns `none`; the result is
`none` when the loop does not finish within `fuel` iterations. -/
def unfoldFuel : Nat → β → (β → Option (α × β)) → Option (List α)
  | 0, b, f =>
      match f b with
      | none => some []
      | some _ => none
  | fuel + 1, b, f =>
      match f b with
      | none => some []
      | some (a, b') => (unfoldFuel fuel b' f).map (fun r => a :: r)

/-- `unfold(b, f)` terminates: some amount of fuel lets its loop finish. -/
def unfoldTerminates (b : β) (f : β → Option (α × β)) : Prop :=
  ∃ fuel, (unfoldFuel fuel b f).isSome

/-- The `chain` over one input array inside `comprehension`'s `go`, with the
recursive results delivered as `Option` (propagating fuel exhaustion). -/
def optionFlatMap : List α → (α → Option (List β)) → Option (List β)
  | [], _ => some []
  | x :: xs, h =>
      match h x with
      | none => none
      | some bs => (optionFlatMap xs h).map (fun rest => bs ++ rest)

/-- Embeds `comprehension`'s recursive `go(scope, input)` with explicit fuel:
with an empty input the guard `g` decides between `[f(scope)]` and the empty
array; otherwise each element of the first input array is appended to the
scope and the recursion continues on the remaining input arrays. -/
def comprehensionGoFuel (f : List α → β) (g : List α → Bool) :
    Nat → List α → List (List α) → Option (List β)
  | _, scope, [] => some (if g scope then [f scope] else [])
  | 0, _, _ :: _ => none
  | fuel + 1, scope, inp0 :: rest =>
      optionFlatMap inp0 (fun x => comprehensionGoFuel f g fuel (scope ++ [x]) rest)

/-- Embeds `comprehension(input, f, g)`: `go(empty, input)`, with fuel equal
to the number of input arrays (each recursive call consumes one). -/
def comprehension (input : List (List α)) (f : List α → β) (g : List α → Bool) :
    Option (List β) :=
  comprehensionGoFuel f g input.length [] input

theorem unfoldFuel_const_some :
    ∀ (n : Nat) (b : Nat), unfoldFuel n b (fun b => some ((0 : Nat), b)) = none
  | 0, _ => rfl
  | n + 1, b => by
      simp [unfoldFuel, unfoldFuel_const_some n b]

theorem chopFuel_id_pair :
    ∀ (n : Nat), chopFuel n (fun l : List Nat => ((0 : Nat), l)) [1] = none
  | 0 => rfl
  | n + 1 => by
      simp [chopFuel, chopFuel_id_pair n]

theorem optionFlatMap_isSome (l : List α) (h : α → Option (List β))
    (hall : ∀ x ∈ l, (h x).isSome) : (optionFlatMap l h).isSome := by
  induction l with
  | nil => rfl
  | cons x xs ih =>
      have hx := hall x (by simp)
      rw [optionFlatMap]
      cases hhx : h x with
      | none => rw [hhx] at hx; simp at hx
      | some bs =>
          have := ih (fun y hy => hall y (by simp [hy]))
          cases hxs : optionFlatMap xs h with
          | none => rw [hxs] at this; simp at this
          | some r => simp [hxs]

theorem comprehensionGoFuel_isSome (f : List α → β) (g : List α → Bool) :
    ∀ (fuel : Nat) (scope : List α) (input : List (List α)),
      input.length ≤ fuel → (comprehensionGoFuel f g fuel scope input).isSome
  | _, _, [], _ => by rw [comprehensionGoFuel]; rfl
  | 0, _, _ :: _, h => by simp at h
  | fuel + 1, scope, inp0 :: rest, h => by
      rw [comprehensionGoFuel]
      exact optionFlatMap_isSome inp0 _ (fun x _ =>
        comprehensionGoFuel_isSome f g fuel (scope ++ [x]) rest (by simpa using h))

theorem chopFuel_isSome_of_shrinking (f : List α → β × List α)
    (hf : ∀ l : List α, l ≠ [] → ((f l).2).length < l.length) :
    ∀ (fuel : Nat) (as : List α), as.length ≤ fuel → (chopFuel fuel f as).isSome
  | fuel, [], _ => by cases fuel <;> rfl
  | 0, a :: as, h => by simp at h
  | fuel + 1, a :: as, h => by
      rw [chopFuel]
      have hlt : ((f (a :: as)).2).length < as.length + 1 := by
        simpa using hf (a :: as) (by simp)
      have h' : as.length + 1 ≤ fuel + 1 := by simpa using h
      have hrec := chopFuel_isSome_of_shrinking f hf fuel (f (a :: as)).2
        (by omega)
      cases hc : chopFuel fuel f (f (a :: as)).2 with
      | none => rw [hc] at hrec; simp at hrec
      | some r => simp [hc]

/-- Embeds `splitAt` at the natural-number counts `chunksOf` uses:
`[as.slice(0, n), as.slice(n)]`. -/
def splitAt (n : Nat) (as : List α) : List α × List α :=
  (as.take n, as.drop n)

/-- Embeds `chunksOf`: empty input gives the empty array; when `n - 1` is out
of bounds the whole input is the single chunk; otherwise the input is chopped
with `splitAt n` (fuel `as.length` suffices there, since in that branch
`1 ≤ n`). -/
def chunksOf (n : Int) (as : List α) : List (List α) :=
  if as.length = 0 then []
  else if isOutOfBound (n - 1) as then [as]
  else (chopFuel as.length (fun l => splitAt n.toNat l) as).getD []

theorem chopFuel_nil (fuel : Nat) (f : List α → β × List α) :
    chopFuel fuel f [] = some [] := by
  cases fuel <;> rfl

theorem take_ne_nil_of_pos (m : Nat) (hm : 1 ≤ m) (a : α) (as : List α) :
    (a :: as).take m ≠ [] := by
  cases m with
  | zero => omega
  | succ k => simp [List.take]

theorem chopFuel_splitAt (m : Nat) (hm : 1 ≤ m) :
    ∀ (fuel : Nat) (as : List α), as ≠ [] → as.length ≤ fuel →
      ∃ cs, chopFuel fuel (fun l => splitAt m l) as = some cs ∧
        cs.flatten = as ∧
        (∀ (i : Nat) (c : List α), i + 1 < cs.length → cs.get? i = some c →
          c.length = m) ∧
        (∀ c ∈ cs, c ≠ [])
  | _, [], hne, _ => absurd rfl hne
  | 0, a :: as', _, hlen => by simp at hlen
  | fuel + 1, a :: as', _, hlen => by
      by_cases hdrop : (a :: as').drop m = []
      · refine ⟨[(a :: as').take m], ?_, ?_, ?_, ?_⟩
        · rw [chopFuel]
          simp [splitAt, hdrop, chopFuel_nil]
        · have hle : (a :: as').length ≤ m := List.drop_eq_nil_iff_le.mp hdrop
          simp [List.take_of_length_le hle]
        · intro i c hi _
          simp at hi
        · intro c hc
          simp at hc
          subst hc
          exact take_ne_nil_of_pos m hm a as'
      · have hmlt : m < (a :: as').length := by
          by_contra hc
          exact hdrop (List.drop_eq_nil_iff_le.mpr (by omega))
        have hlen' : ((a :: as').drop m).length ≤ fuel := by
          rw [List.length_drop]
          simp at hlen ⊢
          omega
        obtain ⟨cs', hcs', hjoin, hfull, hnem⟩ :=
          chopFuel_splitAt m hm fuel ((a :: as').drop m) hdrop hlen'
        refine ⟨(a :: as').take m :: cs', ?_, ?_, ?_, ?_⟩
        · rw [chopFuel]
          show (chopFuel fuel (fun l => splitAt m l) ((a :: as').drop m)).map
              (fun r => (a :: as').take m :: r) = some ((a :: as').take m :: cs')
          rw [hcs']
          rfl
        · rw [List.flatten_cons, hjoin]
          exact List.take_append_drop m (a :: as')
        · intro i c hi hc
          cases i with
          | zero =>
              have hcc : (a :: as').take m = c := by simpa using hc
              rw [← hcc, List.length_take]
              omega
          | succ i =>
              exact hfull i c (by simp at hi ⊢; omega) (by simpa using hc)
        · intro c hc
          rcases List.mem_cons.mp hc with h | h
          · subst h
            exact take_ne_nil_of_pos m hm a as'
          · exact hnem c h

theorem set_of_get?_eq [DecidableEq α] :
    ∀ (as : List α) (i : Nat) (a : α), as.get? i = some a → as.set i a = as
  | [], _, _, h => by simp at h
  | x :: xs, 0, a, h => by
      have hx : x = a := by simpa using h
      simp [hx]
  | x :: xs, i + 1, a, h =>
      congrArg (List.cons x) (set_of_get?_eq xs i a h)

theorem unsafeInsertAt_eq :
    ∀ (i : Nat) (a : α) (as : List α),
      unsafeInsertAt i a as = as.take i ++ a :: as.drop i
  | 0, a, as => by simp [unsafeInsertAt]
  | i + 1, a, [] => by simp [unsafeInsertAt]
  | i + 1, a, x :: xs => by
      simp [unsafeInsertAt, unsafeInsertAt_eq i a xs]

end RA

namespace TaskM

/-- The settlement of the promise a `Task` yields when invoked: `none` when it
never settles, `some (.error e)` when it rejects with reason `e`, and
`some (.ok a)` when it resolves with `a`. A `Task<A>` from `src/unnamed/part_000`
is modelled by this settlement; caller-supplied pure Lean functions never
throw, matching the claim's premise. -/
abbrev Task (E α : Type) := Option (Except E α)

/-- The settlement of `p.then(f)` for a callback returning a promise: a
rejection or a pending `p` propagates, a resolved `p` hands its value to `f`. -/
def thenP (p : Task E α) (f : α → Task E β) : Task E β :=
  match p with
  | none => none
  | some (Except.error e) => some (Except.error e)
  | some (Except.ok a) => f a

/-- Embeds `of`: `() => Promise.resolve(a)`. -/
def of (a : α) : Task E α := some (Except.ok a)

/-- Embeds `fromIO`: `() => Promise.resolve(ma())`. -/
def fromIO (ma : Unit → α) : Task E α := some (Except.ok (ma ()))

/-- Embeds `map`: `fa().then(f)` with a plain-value callback. -/
def map (f : α → β) (fa : Task E α) : Task E β :=
  thenP fa (fun a => some (Except.ok (f a)))

/-- Embeds `chain`: `ma().then(a => f(a)())`. -/
def chain (f : α → Task E β) (ma : Task E α) : Task E β :=
  thenP ma f

/-- Embeds `ap`: `Promise.all([fab(), fa()]).then(([f, a]) => f(a))`:
a rejection of either promise rejects (the first listed wins), both resolved
resolves with the application, anything else stays pending. -/
def ap (fa : Task E α) (fab : Task E (α → β)) : Task E β :=
  match fab, fa with
  | some (Except.error e), _ => some (Except.error e)
  | _, some (Except.error e) => some (Except.error e)
  | some (Except.ok f), some (Except.ok a) => some (Except.ok (f a))
  | _, _ => none

/-- Embeds `delay`: the outer promise resolves once the timer has fired and
`ma` has resolved; a rejection of `ma` is never forwarded to `resolve`, so
the outer promise then stays pending. -/
def delay (_millis : Nat) (ma : Task E α) : Task E α :=
  match ma with
  | some (Except.ok a) => some (Except.ok a)
  | _ => none

/-- The task's promise resolves with a value (it neither rejects nor hangs). -/
def resolves (t : Task E α) : Prop := ∃ a, t = some (Except.ok a)

end TaskM

namespace TaskT

/-- A promise in the timed model: the instant it settles, and its value. -/
abbrev TTask (α : Type) := Nat × α

/-- `p.then(k)` where `k` returns a promise: `k` is started only when `p`
settles, so the result settles `(k p.2).1` after instant `p.1`. -/
def thenT (p : TTask α) (k : α → TTask β) : TTask β :=
  (p.1 + (k p.2).1, (k p.2).2)

/-- A `then` callback returning a plain value: the promise settles at once. -/
def pureT (a : α) : TTask α := (0, a)

/-- Embeds `getSemigroup(S).concat`:
`(x, y) => () => x().then(rx => y().then(ry => S.concat(rx, ry)))`. -/
def semigroupConcat (S : α → α → α) (x y : TTask α) : TTask α :=
  thenT x (fun rx => thenT y (fun ry => pureT (S rx ry)))

/-- Modelled from the spec: the host's racing primitive (`Promise.race` is not
part of the repository). It settles as whichever of the two promises settles
first; on a tie the first listed wins. -/
def raceP (x y : TTask α) : TTask α :=
  if y.1 < x.1 then y else x

/-- Embeds `getRaceMonoid().concat`: `(x, y) => () => Promise.race([x(), y()])`. -/
def raceConcat (x y : TTask α) : TTask α :=
  raceP x y

end TaskT

namespace Mem

/-- The heap of JS arrays: reference `r` holds the array `σ.getD r []`. -/
abbrev Store (α : Type) := List (List α)

/-- A reference to an array in the store. -/
abbrev Ref := Nat

/-- The content of the array behind `r`. -/
def readA (σ : Store α) (r : Ref) : List α := σ.getD r []

/-- Allocating a fresh array holding `v` (what `__spreadArrays`, `Array(n)`
and array literals do). -/
def alloc (σ : Store α) (v : List α) : Store α × Ref := (σ ++ [v], σ.length)

/-- Mutating the array behind `r` in place (what `.reverse()`, `.sort()`,
`.splice()` and index assignment do on their receiver). -/
def writeA (σ : Store α) (r : Ref) (v : List α) : Store α := σ.set r v

/-- Embeds `reverse`: `__spreadArrays(as).reverse()` — copy, then reverse the
copy in place. -/
def reverseES (σ : Store α) (r : Ref) : Store α × Ref :=
  let p := alloc σ (readA σ r)
  (writeA p.1 p.2 ((readA p.1 p.2).reverse), p.2)

/-- Embeds `sort(O)`: `__spreadArrays(as).sort(O.compare)` — copy, then the
host sort mutates the copy in place; the host sort is an arbitrary function
`g` of the copied content. -/
def sortES (g : List α → List α) (σ : Store α) (r : Ref) : Store α × Ref :=
  let p := alloc σ (readA σ r)
  (writeA p.1 p.2 (g (readA p.1 p.2)), p.2)

/-- Embeds `unsafeInsertAt` (the action of `insertAt`): `__spreadArrays(as)`
then `xs.splice(i, 0, a)` on the copy. -/
def insertAtES (i : Nat) (a : α) (σ : Store α) (r : Ref) : Store α × Ref :=
  let p := alloc σ (readA σ r)
  (writeA p.1 p.2 (RA.unsafeInsertAt i a (readA p.1 p.2)), p.2)

/-- Embeds `unsafeDeleteAt` (the action of `deleteAt`): `__spreadArrays(as)`
then `xs.splice(i, 1)` on the copy. -/
def deleteAtES (i : Nat) (σ : Store α) (r : Ref) : Store α × Ref :=
  let p := alloc σ (readA σ r)
  (writeA p.1 p.2 ((readA p.1 p.2).take i ++ (readA p.1 p.2).drop (i + 1)), p.2)

/-- Embeds `unsafeUpdateAt` (the action of `updateAt`): when the element at
`i` already is `a` the input array itself is returned unchanged, otherwise a
copy is made and index `i` of the copy is assigned. -/
def updateAtES [DecidableEq α] (i : Nat) (a : α) (σ : Store α) (r : Ref) :
    Store α × Ref :=
  if (readA σ r).get? i = some a then (σ, r)
  else
    let p := alloc σ (readA σ r)
    (writeA p.1 p.2 ((readA p.1 p.2).set i a), p.2)

/-- Embeds `cons`: a fresh array of length `len + 1` is filled with `head`
followed by the elements of `tail`; the input is only read. -/
def consES (a : α) (σ : Store α) (r : Ref) : Store α × Ref :=
  alloc σ (a :: readA σ r)

/-- Embeds `snoc`: a fresh array of length `len + 1` is filled with the
elements of `init` followed by `end`; the input is only read. -/
def snocES (a : α) (σ : Store α) (r : Ref) : Store α × Ref :=
  alloc σ (readA σ r ++ [a])

theorem readA_alloc (σ : Store α) (v : List α) (r : Ref) (hr : r < σ.length) :
    readA (alloc σ v).1 r = readA σ r := by
  unfold readA alloc
  rw [List.getD_eq_get?, List.getD_eq_get?, List.get?_append hr]

theorem readA_write_ne (σ : Store α) (c r : Ref) (v : List α) (hne : c ≠ r) :
    readA (writeA σ c v) r = readA σ r := by
  unfold readA writeA
  rw [List.getD_eq_get?, List.getD_eq_get?, List.get?_set_ne _ _ hne]

theorem readA_alloc_write (σ : Store α) (v w : List α) (r : Ref)
    (hr : r < σ.length) :
    readA (writeA (alloc σ v).1 (alloc σ v).2 w) r = readA σ r := by
  rw [readA_write_ne ((alloc σ v).1) ((alloc σ v).2) r w (ne_of_gt hr),
    readA_alloc σ v r hr]

end Mem

/-- C3: a Task never fails: built with `of`, `map`, `chain`, `ap`, `delay` or
`fromIO` from component tasks that resolve (never reject) and caller-supplied
functions that never throw, the resulting task resolves with a value and never
rejects. -/
theorem task_combinators_never_reject {E : Type} (a : Nat) (io : Unit → Nat)
    (g : Nat → Nat) (millis : Nat) (x : TaskM.Task E Nat)
    (fab : TaskM.Task E (Nat → Nat)) (f : Nat → TaskM.Task E Nat)
    (hx : TaskM.resolves x) (hfab : TaskM.resolves fab)
    (hf : ∀ b, TaskM.resolves (f b)) :
    TaskM.resolves (TaskM.of (E := E) a) ∧
    TaskM.resolves (TaskM.fromIO (E := E) io) ∧
    TaskM.resolves (TaskM.map g x) ∧
    TaskM.resolves (TaskM.chain f x) ∧
    TaskM.resolves (TaskM.ap x fab) ∧
    TaskM.resolves (TaskM.delay millis x) := by
  obtain ⟨vx, rfl⟩ := hx
  obtain ⟨vf, rfl⟩ := hfab
  refine ⟨⟨a, rfl⟩, ⟨io (), rfl⟩, ⟨g vx, rfl⟩, ?_, ⟨vf vx, rfl⟩, ⟨vx, rfl⟩⟩
  obtain ⟨vb, hb⟩ := hf vx
  exact ⟨vb, by simpa [TaskM.chain, TaskM.thenP] using hb⟩

/-- Witness for C3: concrete resolving components over `E = Unit`. -/
theorem task_combinators_never_reject_witness :
    TaskM.resolves (TaskM.map (fun n => n + 1)
      (TaskM.of (E := Unit) (1 : Nat))) ∧
    TaskM.resolves (TaskM.chain (fun n => TaskM.of (E := Unit) (n * 2))
      (TaskM.of (E := Unit) (1 : Nat))) := by
  have h := task_combinators_never_reject (E := Unit) 1 (fun _ => 0)
    (fun n => n + 1) 5 (TaskM.of 1) (TaskM.of (fun n => n))
    (fun n => TaskM.of (n * 2)) ⟨1, rfl⟩ ⟨fun n => n, rfl⟩ (fun b => ⟨b * 2, rfl⟩)
  exact ⟨h.2.2.1, h.2.2.2.1⟩

/-- C4: `getSemigroup(S).concat(x, y)` is sequential invocation: it settles
`y.1` instants after `x` has settled (`y` runs after `x` completes) with
value `S.concat` of the two results in order; `getRaceMonoid().concat(x, y)`
is a direct pass-through to the racing primitive and settles as whichever of
the two settles first. -/
theorem task_concat_sequential_race_passthrough (S : Nat → Nat → Nat)
    (x y : TaskT.TTask Nat) :
    TaskT.semigroupConcat S x y = (x.1 + y.1, S x.2 y.2) ∧
    TaskT.raceConcat x y = TaskT.raceP x y ∧
    (y.1 < x.1 → TaskT.raceConcat x y = y) ∧
    (x.1 ≤ y.1 → TaskT.raceConcat x y = x) := by
  refine ⟨?_, rfl, ?_, ?_⟩
  · simp [TaskT.semigroupConcat, TaskT.thenT, TaskT.pureT]
  · intro h
    simp [TaskT.raceConcat, TaskT.raceP, h]
  · intro h
    simp [TaskT.raceConcat, TaskT.raceP, Nat.not_lt.mpr h]

/-- Witness for C4: a slow `x` and fast `y`: sequencing takes the sum of the
durations, racing settles as the faster `y`. -/
theorem task_concat_sequential_race_witness :
    TaskT.semigroupConcat (· + ·) ((3, 10) : TaskT.TTask Nat) (2, 20) = (5, 30) ∧
    TaskT.raceConcat ((3, 10) : TaskT.TTask Nat) (2, 20) = (2, 20) := by
  have h := task_concat_sequential_race_passthrough (· + ·) (3, 10) (2, 20)
  exact ⟨h.1, h.2.2.1 (by decide)⟩

/-- C5: the modifying array operations never mutate their input: after
`sort`, `reverse`, `insertAt`, `deleteAt`, `updateAt`, `cons` or `snoc` the
input array still holds exactly its original elements in their original
order (each works on a freshly allocated copy, or returns the unchanged
input itself). -/
theorem array_ops_preserve_input (σ : Mem.Store Nat) (r : Mem.Ref)
    (hr : r < σ.length) (g : List Nat → List Nat) (i : Nat) (a : Nat) :
    Mem.readA (Mem.reverseES σ r).1 r = Mem.readA σ r ∧
    Mem.readA (Mem.sortES g σ r).1 r = Mem.readA σ r ∧
    Mem.readA (Mem.insertAtES i a σ r).1 r = Mem.readA σ r ∧
    Mem.readA (Mem.deleteAtES i σ r).1 r = Mem.readA σ r ∧
    Mem.readA (Mem.updateAtES i a σ r).1 r = Mem.readA σ r ∧
    Mem.readA (Mem.consES a σ r).1 r = Mem.readA σ r ∧
    Mem.readA (Mem.snocES a σ r).1 r = Mem.readA σ r := by
  refine ⟨?_, ?_, ?_, ?_, ?_, ?_, ?_⟩
  · exact Mem.readA_alloc_write σ _ _ r hr
  · exact Mem.readA_alloc_write σ _ _ r hr
  · exact Mem.readA_alloc_write σ _ _ r hr
  · exact Mem.readA_alloc_write σ _ _ r hr
  · rw [Mem.updateAtES]
    by_cases hc : (Mem.readA σ r).get? i = some a
    · rw [if_pos hc]
    · rw [if_neg hc]
      exact Mem.readA_alloc_write σ _ _ r hr
  · exact Mem.readA_alloc σ _ r hr
  · exact Mem.readA_alloc σ _ r hr

/-- Witness for C5: a one-array store; reversing and sorting leave the
original array at reference 0 intact. -/
theorem array_ops_preserve_input_witness :
    Mem.readA (Mem.reverseES [[3, 1, 2]] 0).1 0 = [3, 1, 2] ∧
    Mem.readA (Mem.sortES List.reverse [[3, 1, 2]] 0).1 0 = [3, 1, 2] ∧
    Mem.readA (Mem.updateAtES 1 7 [[3, 1, 2]] 0).1 0 = [3, 1, 2] := by
  have h := array_ops_preserve_input [[3, 1, 2]] 0 (by decide) List.reverse 1 7
  refine ⟨?_, ?_, ?_⟩
  · simpa using h.1
  · simpa using h.2.1
  · simpa using h.2.2.2.2.1

/-- C1 counterexample: `unfold` and `chop` do not terminate for every
caller-supplied `f`: with `f = b => some([0, b])` the `unfold` loop never
exits (no amount of fuel completes it), and likewise `chop` with the
rest-preserving `f = l => [0, l]` on the input `[1]`. -/
theorem chop_unfold_nonterminating :
    ¬ RA.unfoldTerminates (0 : Nat) (fun b : Nat => some ((0 : Nat), b)) ∧
    ¬ RA.chopTerminates (fun l : List Nat => ((0 : Nat), l)) [1] := by
  constructor
  · rintro ⟨n, hn⟩
    rw [RA.unfoldFuel_const_some n 0] at hn
    simp at hn
  · rintro ⟨n, hn⟩
    rw [RA.chopFuel_id_pair n] at hn
    simp at hn

/-- C1 amended: `comprehension(input, f, g)` does terminate for every
caller-supplied `f` and `g` (fuel `input.length` always suffices), and
`chop(f)(as)` terminates for every `f` that strictly shrinks its non-empty
argument (fuel `as.length` suffices) — but not for arbitrary `f`. -/
theorem chop_comprehension_termination (f : List Nat → Nat × List Nat)
    (hf : ∀ l : List Nat, l ≠ [] → ((f l).2).length < l.length)
    (as : List Nat) (input : List (List Nat)) (fc : List Nat → Nat)
    (g : List Nat → Bool) :
    (RA.chopFuel as.length f as).isSome = true ∧
    (RA.comprehension input fc g).isSome = true := by
  constructor
  · exact RA.chopFuel_isSome_of_shrinking f hf as.length as le_rfl
  · exact RA.comprehensionGoFuel_isSome fc g input.length [] input le_rfl

/-- Witness for the amended C1: chopping `[1, 2, 3]` with the strictly
shrinking `l => [0, l.tail]` finishes, and a two-generator comprehension
finishes. -/
theorem chop_comprehension_termination_witness :
    (RA.chopFuel 3 (fun l : List Nat => ((0 : Nat), l.tail)) [1, 2, 3]).isSome = true ∧
    (RA.comprehension [[1, 2], [3]] (fun s : List Nat => s.sum)
      (fun _ => true)).isSome = true := by
  have h := chop_comprehension_termination (fun l => (0, l.tail))
    (fun l hl => by
      cases l with
      | nil => exact absurd rfl hl
      | cons a as => simp)
    [1, 2, 3] [[1, 2], [3]] (fun s => s.sum) (fun _ => true)
  simpa using h

/-- C2: the index-based operations signal absence with an optional result:
`lookup i as`, `updateAt i a as` return `none` exactly when
`i < 0 ∨ as.length ≤ i`, and `insertAt i a as` returns `none` exactly when
`i < 0 ∨ as.length < i`; otherwise each returns `some` of the looked-up
element / modified array (and, being total functions, none of them throws). -/
theorem index_ops_signal_absence (i : Int) (a : Nat) (as : List Nat) :
    (RA.lookup i as = none ↔ (i < 0 ∨ (as.length : Int) ≤ i)) ∧
    ((0 ≤ i ∧ i < (as.length : Int)) → RA.lookup i as = some (as.getD i.toNat 0)) ∧
    (RA.updateAt i a as = none ↔ (i < 0 ∨ (as.length : Int) ≤ i)) ∧
    ((0 ≤ i ∧ i < (as.length : Int)) →
      RA.updateAt i a as = some (as.set i.toNat a)) ∧
    (RA.insertAt i a as = none ↔ (i < 0 ∨ (as.length : Int) < i)) ∧
    ((0 ≤ i ∧ i ≤ (as.length : Int)) →
      RA.insertAt i a as = some (as.take i.toNat ++ a :: as.drop i.toNat)) := by
  have hout : RA.isOutOfBound i as = true ↔ (i < 0 ∨ (as.length : Int) ≤ i) := by
    simp [RA.isOutOfBound]
  refine ⟨?_, ?_, ?_, ?_, ?_, ?_⟩
  · by_cases hb : i < 0 ∨ (as.length : Int) ≤ i
    · rw [RA.lookup, hout.mpr hb]
      simp [hb]
    · push_neg at hb
      have hb' : RA.isOutOfBound i as = false := by
        simp [RA.isOutOfBound]; omega
      have hlt : i.toNat < as.length := by omega
      rw [RA.lookup, hb']
      simp only [Bool.false_eq_true, if_false]
      rw [List.get?_eq_get hlt]
      constructor
      · intro h
        exact absurd h (by simp)
      · intro h
        omega
  · rintro ⟨h0, hlt⟩
    have hb : RA.isOutOfBound i as = false := by
      simp [RA.isOutOfBound]; omega
    have hlt' : i.toNat < as.length := by omega
    rw [RA.lookup, hb]
    simp only [Bool.false_eq_true, if_false]
    rw [List.get?_eq_get hlt', List.getD_eq_get?, List.get?_eq_get hlt']
    rfl
  · by_cases hb : i < 0 ∨ (as.length : Int) ≤ i
    · rw [RA.updateAt, hout.mpr hb]
      simp [hb]
    · push_neg at hb
      have hb' : RA.isOutOfBound i as = false := by
        simp [RA.isOutOfBound]; omega
      rw [RA.updateAt, hb']
      simp only [Bool.false_eq_true, if_false]
      constructor
      · intro h
        simp at h
      · intro h
        omega
  · rintro ⟨h0, hlt⟩
    have hb : RA.isOutOfBound i as = false := by
      simp [RA.isOutOfBound]; omega
    rw [RA.updateAt, hb]
    simp only [Bool.false_eq_true, if_false, RA.unsafeUpdateAt]
    by_cases he : as.get? i.toNat = some a
    · rw [if_pos he, RA.set_of_get?_eq as i.toNat a he]
    · rw [if_neg he]
  · constructor
    · intro h
      rw [RA.insertAt] at h
      by_contra hc
      push_neg at hc
      rw [show (decide (i < 0) || decide (i > (as.length : Int))) = false by
        simp; omega] at h
      simp at h
    · intro h
      rw [RA.insertAt]
      rw [show (decide (i < 0) || decide (i > (as.length : Int))) = true by
        simp; omega]
      rfl
  · rintro ⟨h0, hle⟩
    rw [RA.insertAt]
    rw [show (decide (i < 0) || decide (i > (as.length : Int))) = false by
      simp; omega]
    simp [RA.unsafeInsertAt_eq]

/-- Witness for C2: concrete in-bounds and out-of-bounds instances. -/
theorem index_ops_signal_absence_witness :
    RA.lookup 1 ([10, 20, 30] : List Nat) = some 20 ∧
    RA.updateAt 1 9 ([10, 20, 30] : List Nat) = some [10, 9, 30] ∧
    RA.insertAt 3 9 ([10, 20, 30] : List Nat) = some [10, 20, 30, 9] ∧
    RA.lookup (-1) ([10, 20, 30] : List Nat) = none := by
  refine ⟨?_, ?_, ?_, ?_⟩
  · have h := (index_ops_signal_absence 1 9 [10, 20, 30]).2.1 (by constructor <;> decide)
    simpa using h
  · have h := (index_ops_signal_absence 1 9 [10, 20, 30]).2.2.2.1 (by constructor <;> decide)
    simpa using h
  · have h :=
      (index_ops_signal_absence 3 9 [10, 20, 30]).2.2.2.2.2 (by constructor <;> decide)
    simpa using h
  · exact (index_ops_signal_absence (-1) 9 [10, 20, 30]).1.mpr (Or.inl (by decide))

/-- C9: chunking round-trips with flattening: for `1 ≤ n`,
`flatten (chunksOf n as) = as`; every chunk except possibly the last has
length exactly `n`; and no chunk is empty. -/
theorem chunksOf_spec (n : Int) (as : List Nat) (hn : 1 ≤ n) :
    RA.flatten (RA.chunksOf n as) = as ∧
    (∀ (i : Nat) (c : List Nat), i + 1 < (RA.chunksOf n as).length →
      (RA.chunksOf n as).get? i = some c → (c.length : Int) = n) ∧
    (∀ c ∈ RA.chunksOf n as, c ≠ []) := by
  unfold RA.chunksOf
  by_cases h0 : as.length = 0
  · rw [if_pos h0]
    have : as = [] := List.length_eq_zero.mp h0
    subst this
    refine ⟨rfl, ?_, ?_⟩
    · intro i c hi _
      simp at hi
    · intro c hc
      simp at hc
  · rw [if_neg h0]
    have hne : as ≠ [] := fun h => h0 (by simp [h])
    by_cases hb : RA.isOutOfBound (n - 1) as = true
    · rw [if_pos hb]
      refine ⟨by simp [RA.flatten], ?_, ?_⟩
      · intro i c hi _
        simp at hi
      · intro c hc
        simp at hc
        subst hc
        exact hne
    · rw [if_neg hb]
      have hout : ¬(n - 1 < 0) ∧ ¬((as.length : Int) ≤ n - 1) := by
        have := hb
        simp [RA.isOutOfBound] at this
        constructor <;> omega
      have hm : 1 ≤ n.toNat := by omega
      obtain ⟨cs, hcs, hjoin, hfull, hnem⟩ :=
        RA.chopFuel_splitAt n.toNat hm as.length as hne le_rfl
      rw [hcs]
      simp only [Option.getD_some]
      refine ⟨by simpa [RA.flatten] using hjoin, ?_, ?_⟩
      · intro i c hi hc
        have hlen := hfull i c hi hc
        omega
      · exact hnem

/-- Witness for C9: `chunksOf 2 [1, 2, 3, 4, 5]` flattens back to the input,
has all chunks but the last of length 2, and no empty chunk. -/
theorem chunksOf_spec_witness :
    RA.chunksOf 2 ([1, 2, 3, 4, 5] : List Nat) = [[1, 2], [3, 4], [5]] ∧
    RA.flatten (RA.chunksOf 2 ([1, 2, 3, 4, 5] : List Nat)) = [1, 2, 3, 4, 5] ∧
    (∀ c ∈ RA.chunksOf 2 ([1, 2, 3, 4, 5] : List Nat), c ≠ []) := by
  have h := chunksOf_spec 2 [1, 2, 3, 4, 5] (by decide)
  exact ⟨by rfl, h.1, h.2.2⟩

/-- C10: `scanLeft b f as` has length `as.length + 1`, starts with `b`, its
element at `i + 1` is `f` of the element at `i` and `as[i]`, and its last
element is `reduce b f as`. -/
theorem scanLeft_spec (b : Nat) (f : Nat → Nat → Nat) (as : List Nat) :
    (RA.scanLeft b f as).length = as.length + 1 ∧
    (RA.scanLeft b f as).get? 0 = some b ∧
    (∀ (i : Nat) (bi ai : Nat),
      (RA.scanLeft b f as).get? i = some bi → as.get? i = some ai →
      (RA.scanLeft b f as).get? (i + 1) = some (f bi ai)) ∧
    (RA.scanLeft b f as).getLast? = some (RA.reduce b f as) := by
  refine ⟨RA.scanLeft_length f as b, RA.scanLeft_head f as b, ?_, ?_⟩
  · intro i bi ai hb ha
    exact RA.scanLeft_step f as b i bi ai hb ha
  · rw [RA.reduce_eq_foldl]
    exact RA.scanLeft_getLast f as b

/-- Witness for C10: the documented example `scanLeft(10, (b, a) => b - a)`
on `[1, 2, 3]` (with truncated subtraction), checking the step clause at
index 1. -/
theorem scanLeft_spec_witness :
    RA.scanLeft 10 (fun b a => b - a) [1, 2, 3] = [10, 9, 7, 4] ∧
    (RA.scanLeft 10 (fun b a => b - a) [1, 2, 3]).get? 2 = some ((fun b a => b - a) 9 2) := by
  constructor
  · rfl
  · exact (scanLeft_spec 10 (fun b a => b - a) [1, 2, 3]).2.2.1 1 9 2 (by rfl) (by rfl)

/-- C6: the `ReadonlyArray` monoid laws: `concat` is associative and `empty`
is a two-sided identity for it. -/
theorem readonlyArray_monoid_laws :
    (∀ (xs ys zs : List Nat),
      RA.concat (RA.concat xs ys) zs = RA.concat xs (RA.concat ys zs)) ∧
    (∀ xs : List Nat, RA.concat xs RA.empty = xs) ∧
    (∀ xs : List Nat, RA.concat RA.empty xs = xs) := by
  refine ⟨?_, ?_, ?_⟩
  · intro xs ys zs
    simp [RA.concat_eq_append, List.append_assoc]
  · intro xs
    simp [RA.concat_eq_append, RA.empty]
  · intro xs
    simp [RA.concat_eq_append, RA.empty]

/-- C7: the `ReadonlyArray` monad identities: `chain f (of a) = f a` and
`chain of ma = ma`. -/
theorem readonlyArray_monad_identities :
    (∀ (a : Nat) (f : Nat → List Nat), RA.chain f (RA.of a) = f a) ∧
    (∀ ma : List Nat, RA.chain RA.of ma = ma) := by
  constructor
  · intro a f
    simp [RA.chain, RA.of]
  · intro ma
    induction ma with
    | nil => rfl
    | cons a as ih => simp [RA.chain, RA.of] at ih ⊢; exact ih

/-- C8: the `ReadonlyArray` functor laws: mapping the identity is the
identity, and mapping a composition is the composition of the maps. -/
theorem readonlyArray_functor_laws :
    (∀ fa : List Nat, RA.map id fa = fa) ∧
    (∀ (f : Nat → Nat) (g : Nat → Nat) (fa : List Nat),
      RA.map (g ∘ f) fa = RA.map g (RA.map f fa)) := by
  constructor
  · intro fa
    simp [RA.map]
  · intro f g fa
    simp [RA.map]
